import Mathlib

/-!
Shallow embedding of the synthesizer-based CPRF reference implementation
(`src/cprf.py`): the base PRF wrapper `cmacPRF`, key generation `keyGen`,
the synthesizer evaluation engine `eval` and the `constrain` operator,
together with theorems checking the specification's claims against them.

Conventions of the embedding:
- Python `bytes` objects become `List (Fin 256)`.
- Python exceptions become `Except Error`; list indexing and list-index
  assignment are embedded as checked operations (`getEntry` / `setEntry`)
  that fail with `Error.indexError` exactly where Python raises
  `IndexError`.  The error names the specification introduces
  (`InputLengthError`, `KeyLengthError`, ...) are carried in the same
  `Error` type so that claims about them can be stated.
- The calls to `secrets.token_bytes(16)` are embedded by passing the
  random tape explicitly (`rnd : Nat -> Bytes`, indexed by draw site),
  so every theorem quantifies over all possible random draws.
- The base PRF carried inside a key is an arbitrary function
  `Bytes -> Bytes -> Except Error Bytes`, matching the Python key shape
  `(prf, keyMat)` where `prf` is a function object that may raise.
-/

/-- Error kinds: `indexError` embeds Python's `IndexError`; the remaining
constructors are the error kinds named by the specification, carried in
the type so that claims about them are statable. -/
inductive Error where
  | indexError
  | inputLengthError
  | keyLengthError
  | invalidPatternError
  | patternLengthError
  deriving DecidableEq

/-- A Python byte: an integer in [0, 256). -/
abbrev Byte := Fin 256

/-- A Python `bytes` object. -/
abbrev Bytes := List Byte

/-- The base PRF as stored in a key: a function object that may raise. -/
abbrev Prf := Bytes → Bytes → Except Error Bytes

/-- A CPRF key as built by `keyGen`/`constrain`: the pair
`(prf, keyMat)` of the base-PRF function and the 2 x 128 key matrix. -/
abbrev Key := Prf × List (List Bytes)

/-- Checked list indexing: `l[i]` in Python, raising `IndexError` when
out of range. -/
def getEntry (l : List α) (i : Nat) : Except Error α :=
  match l.get? i with
  | some x => .ok x
  | none => .error .indexError

/-- Checked list-index assignment: `l[i] = a` in Python, raising
`IndexError` when out of range. -/
def setEntry (l : List α) (i : Nat) (a : α) : Except Error (List α) :=
  if i < l.length then .ok (l.set i a) else .error .indexError

/-- Two-level indexing `keyMat[b][i]`. -/
def getEntry2 (m : List (List Bytes)) (b i : Nat) : Except Error Bytes := do
  let row ← getEntry m b
  getEntry row i

/-- The eight bits of one byte, most-significant-bit first: the characters
of Python's format string expansion of the byte. -/
def byteBits (b : Byte) : List Nat :=
  (List.range 8).map (fun k => b.val / 2 ^ (7 - k) % 2)

/-- The bit expansion of a byte string, most-significant-bit-first per
byte: the list of characters of the joined format strings in `eval`. -/
def bitsOf (v : Bytes) : List Nat :=
  (v.map byteBits).join

/-- The bit of `v` at position `k` (0 outside range); used only to state
claims about which matrix entries evaluation selects. -/
def bitAt (v : Bytes) (k : Nat) : Nat :=
  (bitsOf v).getD k 0

/-- The leaf-building loop of `eval`: for each adjacent pair of bits at
positions `(i, i+1)` it computes `prf(keyMat[bit i][i], keyMat[bit (i+1)][i+1])`.
A trailing unpaired bit would make Python read `binrep[i+1]` out of
range, hence the `indexError` in the singleton case. -/
def leafLayer (prf : Prf) (keyMat : List (List Bytes)) : Nat → List Nat → Except Error (List Bytes)
  | _, [] => .ok []
  | _, [_] => .error .indexError
  | i, b0 :: b1 :: rest => do
    let k ← getEntry2 keyMat b0 i
    let msg ← getEntry2 keyMat b1 (i + 1)
    let leaf ← prf k msg
    let r ← leafLayer prf keyMat (i + 2) rest
    .ok (leaf :: r)

/-- One round of the reduction loop of `eval`: fold the current leaf
sequence pairwise via `prf(leaves[i], leaves[i+1])`.  An odd sequence of
length at least two makes Python read `leaves[i+1]` out of range. -/
def synthRound (prf : Prf) : List Bytes → Except Error (List Bytes)
  | [] => .ok []
  | [_] => .error .indexError
  | a :: b :: rest => do
    let x ← prf a b
    let r ← synthRound prf rest
    .ok (x :: r)

/-- Destructuring a successful Except bind. -/
theorem exceptBind_ok {α β : Type} {e : Except Error α} {f : α → Except Error β} {b : β}
    (h : e >>= f = .ok b) : ∃ a, e = .ok a ∧ f a = .ok b := by
  cases e with
  | error err =>
    simp only [Bind.bind, Except.bind] at h
    exact Except.noConfusion h
  | ok a =>
    refine ⟨a, rfl, ?_⟩
    simpa only [Bind.bind, Except.bind] using h

/-- Destructuring a failing Except bind. -/
theorem exceptBind_err {α β : Type} {e : Except Error α} {f : α → Except Error β} {err : Error}
    (h : e >>= f = .error err) : e = .error err ∨ ∃ a, e = .ok a ∧ f a = .error err := by
  cases e with
  | error e' =>
    simp only [Bind.bind, Except.bind] at h
    cases h
    exact Or.inl rfl
  | ok a =>
    refine Or.inr ⟨a, rfl, ?_⟩
    simpa only [Bind.bind, Except.bind] using h

/-- A successful reduction round exactly halves the sequence length. -/
theorem synthRound_len (prf : Prf) : ∀ (ls next : List Bytes),
    synthRound prf ls = .ok next → 2 * next.length = ls.length
  | [], next, h => by
    simp only [synthRound] at h
    cases h
    simp
  | [_], next, h => by
    simp only [synthRound] at h
    exact Except.noConfusion h
  | a :: b :: rest, next, h => by
    simp only [synthRound] at h
    obtain ⟨x, hx, h⟩ := exceptBind_ok h
    obtain ⟨r, hr, h⟩ := exceptBind_ok h
    cases h
    have := synthRound_len prf rest r hr
    simp only [List.length_cons]
    omega

/-- The `while len(leaves) > 1` reduction loop of `eval`, followed by the
final `return leaves[0]` (which raises `IndexError` on an empty list). -/
def synthRoot (prf : Prf) (ls : List Bytes) : Except Error Bytes :=
  if h : 1 < ls.length then
    match hnext : synthRound prf ls with
    | .error e => .error e
    | .ok next => synthRoot prf next
  else
    getEntry ls 0
termination_by ls.length
decreasing_by
  have := synthRound_len prf ls next hnext
  omega

/-- The synthesizer evaluation engine `eval(key, val)`: expand `val` into
bits most-significant-bit-first, build the leaf layer, then reduce
pairwise to the root. -/
def cprfEval (key : Key) (val : Bytes) : Except Error Bytes :=
  let binrep := bitsOf val
  match key with
  | (prf, keyMat) => do
    let ls ← leafLayer prf keyMat 0 binrep
    synthRoot prf ls

/-- State-passing form of `eval` over the ambient randomness source
(tape and draw counter): the body of `eval` contains no
`secrets.token_bytes` call, so its state-passing translation consults
neither the tape nor the counter and returns the counter unchanged. -/
def cprfEvalR (tape : Nat → Bytes) (ctr : Nat) (key : Key) (val : Bytes) :
    Except Error Bytes × Nat :=
  (cprfEval key val, ctr)

/-- Bytewise xor. -/
def bxor (a b : Byte) : Byte :=
  ⟨Nat.xor a.val b.val % 256, Nat.mod_lt _ (by norm_num)⟩

/-- Xor of two byte strings (zipped). -/
def xorBytes (xs ys : Bytes) : Bytes :=
  List.zipWith bxor xs ys

/-- Big-endian interpretation of a byte string as a natural number. -/
def bytesToNat (bs : Bytes) : Nat :=
  bs.foldl (fun acc b => acc * 256 + b.val) 0

/-- Big-endian 16-byte encoding of a natural number (mod 2^128). -/
def natToBytes16 (n : Nat) : Bytes :=
  (List.range 16).map (fun i => ⟨n / 256 ^ (15 - i) % 256, Nat.mod_lt _ (by norm_num)⟩)

/-- RFC 4493 subkey doubling in GF(2^128): shift left one bit and
conditionally xor the constant 0x87 into the low byte. -/
def dblBlock (bs : Bytes) : Bytes :=
  let n := bytesToNat bs
  let shifted := n * 2 % 2 ^ 128
  natToBytes16 (if n / 2 ^ 127 % 2 = 1 then Nat.xor shifted 0x87 else shifted)

/-- RFC 4493 padding of an incomplete final block: append the byte 0x80
and then zero bytes up to block length 16. -/
def pad16 (bs : Bytes) : Bytes :=
  bs ++ (0x80 : Byte) :: List.replicate (15 - bs.length) (0 : Byte)

/-- Split a message into 16-byte blocks; the final block may be short
(the empty message yields a single empty block, to be padded). -/
def splitBlocks (l : Bytes) : List Bytes :=
  if h : 16 < l.length then
    l.take 16 :: splitBlocks (l.drop 16)
  else
    [l]
termination_by l.length
decreasing_by
  simp only [List.length_drop]
  omega

/-- Modelled from the spec: the body of the Python `cmacPRF` delegates to
the external library call `CMAC.new(key, ciphermod = AES)` whose
implementation is not part of src/; per the spec it is a CMAC with
RFC 4493-compatible subkey derivation and padding over a 128-bit block
cipher, producing a full-block (16-byte) untruncated tag.  The block
cipher is the parameter `E` (key, block to block). -/
def cmacTag (E : Bytes → Bytes → Bytes) (key msg : Bytes) : Bytes :=
  let L := E key (List.replicate 16 (0 : Byte))
  let K1 := dblBlock L
  let K2 := dblBlock K1
  let blocks := splitBlocks msg
  let finalBlock := blocks.getLastD []
  let lastAdj := if finalBlock.length = 16 then xorBytes finalBlock K1
                 else xorBytes (pad16 finalBlock) K2
  let X := blocks.dropLast.foldl (fun x m => E key (xorBytes x m))
            (List.replicate 16 (0 : Byte))
  E key (xorBytes X lastAdj)

/-- Modelled from the spec: `cmacPRF(key, val)` fails with
`KeyLengthError` when the key is not exactly 16 bytes and otherwise
returns the full-block CMAC tag of `val` under `key`. -/
def cmacPRF (E : Bytes → Bytes → Bytes) (key val : Bytes) : Except Error Bytes :=
  if key.length = 16 then .ok (cmacTag E key val) else .error .keyLengthError

/-- `keyGen()`: a fresh 2 x 128 matrix of independently drawn 16-byte
random values paired with the base PRF.  The random draws are passed in
explicitly as `rnd2 row col`. -/
def keyGen (rnd2 : Nat → Nat → Bytes) (E : Bytes → Bytes → Bytes) : Key :=
  (cmacPRF E, [(List.range 128).map (fun c => rnd2 0 c),
               (List.range 128).map (fun c => rnd2 1 c)])

/-- The inner copy comprehension of `constrain`:
`[keyMat[row][col] for col in range(...)]` starting at column `c` for
`k` columns (raising `IndexError` where Python would). -/
def copyCols (row : List Bytes) : Nat → Nat → Except Error (List Bytes)
  | _, 0 => .ok []
  | c, k + 1 => do
    let x ← getEntry row c
    let r ← copyCols row (c + 1) k
    .ok (x :: r)

/-- Copy of one matrix row over columns `0..127`. -/
def copyRow (row : List Bytes) : Except Error (List Bytes) :=
  copyCols row 0 128

/-- The copy step of `constrain`:
`[[keyMat[row][col] for col in range(128)] for row in range(2)]`. -/
def copyMatrix (m : List (List Bytes)) : Except Error (List (List Bytes)) := do
  let r0 ← getEntry m 0
  let c0 ← copyRow r0
  let r1 ← getEntry m 1
  let c1 ← copyRow r1
  .ok [c0, c1]

/-- The fill loop of `constrain`: for each pattern position `i`, a '1'
overwrites `newKey[0][i]` with a fresh random value, a '0' overwrites
`newKey[1][i]`, and any other character does nothing. -/
def fillKey (rnd : Nat → Bytes) : List Char → Nat → List (List Bytes) → Except Error (List (List Bytes))
  | [], _, nk => .ok nk
  | c :: rest, i, nk =>
    if c = '1' then do
      let row ← getEntry nk 0
      let row' ← setEntry row i (rnd i)
      fillKey rnd rest (i + 1) (nk.set 0 row')
    else if c = '0' then do
      let row ← getEntry nk 1
      let row' ← setEntry row i (rnd i)
      fillKey rnd rest (i + 1) (nk.set 1 row')
    else
      fillKey rnd rest (i + 1) nk

/-- `constrain(msk, pattern)`: deep-copy the key matrix, then
rerandomize the entries made unreachable by the pattern.  The fresh
random draws are passed in explicitly as `rnd i` for pattern position `i`. -/
def constrain (msk : Key) (pattern : List Char) (rnd : Nat → Bytes) : Except Error Key :=
  match msk with
  | (prf, keyMat) => do
    let nk ← copyMatrix keyMat
    let nk' ← fillKey rnd pattern 0 nk
    .ok (prf, nk')

/-- Whether a bit sequence agrees with a pattern at every position the
pattern fixes to '0' or '1' (the matching condition of the spec's
constrain-consistency property). -/
def matchesP : List Char → List Nat → Bool
  | [], _ => true
  | _ :: _, [] => false
  | c :: p, b :: bs =>
    (if c = '1' then b == 1 else if c = '0' then b == 0 else true) && matchesP p bs

/-- The matrix entry `matrix[b][i]` of a two-row matrix, for stating
which entries evaluation selects (`b` is an input bit, so 0 or 1). -/
def mEntry (r0 r1 : List Bytes) (b i : Nat) : Bytes :=
  if b = 0 then r0.getD i [] else r1.getD i []

/-- Whether the fill loop of `constrain`, started at pattern position
`i`, overwrites index `j` of the row governed by character `ch`. -/
def hitChar (ch : Char) (p : List Char) (i j : Nat) : Bool :=
  decide (i ≤ j) && (p.get? (j - i) == some ch)

/-! ## Heap model for the non-mutation claim

Python's key matrices are mutable list objects; `constrain` must copy
the rows before rerandomizing so that the master key's rows are not
changed through aliasing.  To make that observable, rows live in an
explicit store (heap) addressed by allocation order, and keys refer to
their two rows by address. -/

/-- The heap of row objects. -/
abbrev Store := List (List Bytes)

/-- Read the row object at address `a`. -/
def readRow (s : Store) (a : Nat) : Except Error (List Bytes) :=
  getEntry s a

/-- Overwrite the row object at address `a` (the in-place mutation
`row[i] = v` acts on the row object held at its address). -/
def writeRow (s : Store) (a : Nat) (row : List Bytes) : Except Error Store :=
  setEntry s a row

/-- Allocate a fresh row object, returning its address. -/
def allocRow (s : Store) (row : List Bytes) : Store × Nat :=
  (s ++ [row], s.length)

/-- The fill loop of `constrain` in the heap model: each '1'/'0'
character mutates the freshly allocated row objects in place. -/
def fillKeyS (rnd : Nat → Bytes) : List Char → Nat → Nat × Nat → Store → Except Error Store
  | [], _, _, s => .ok s
  | c :: rest, i, addrs, s =>
    if c = '1' then do
      let row ← readRow s addrs.1
      let row' ← setEntry row i (rnd i)
      let s' ← writeRow s addrs.1 row'
      fillKeyS rnd rest (i + 1) addrs s'
    else if c = '0' then do
      let row ← readRow s addrs.2
      let row' ← setEntry row i (rnd i)
      let s' ← writeRow s addrs.2 row'
      fillKeyS rnd rest (i + 1) addrs s'
    else
      fillKeyS rnd rest (i + 1) addrs s

/-- `constrain` in the heap model: read the master key's rows, build
element-wise copies, allocate them as fresh row objects, and run the
fill loop on the fresh addresses only. -/
def constrainS (s : Store) (mref : Nat × Nat) (pattern : List Char) (rnd : Nat → Bytes) :
    Except Error (Store × (Nat × Nat)) := do
  let r0 ← readRow s mref.1
  let r1 ← readRow s mref.2
  let c0 ← copyRow r0
  let c1 ← copyRow r1
  let (s1, a0) := allocRow s c0
  let (s2, a1) := allocRow s1 c1
  let s3 ← fillKeyS rnd pattern 0 (a0, a1) s2
  .ok (s3, (a0, a1))

/-- `eval` in the heap model: dereference the key's two row addresses
and run the pure evaluation engine on their current contents. -/
def evalS (prf : Prf) (s : Store) (mref : Nat × Nat) (v : Bytes) : Except Error Bytes := do
  let r0 ← readRow s mref.1
  let r1 ← readRow s mref.2
  cprfEval (prf, [r0, r1]) v

/-- Decidable equality for Except values, used to evaluate concrete runs. -/
instance exceptDecEq {α β : Type} [DecidableEq α] [DecidableEq β] :
    DecidableEq (Except α β)
  | .error a, .error b =>
    if h : a = b then .isTrue (by rw [h])
    else .isFalse (fun hh => h ((Except.error.injEq _ _).mp hh))
  | .error _, .ok _ => .isFalse (fun hh => Except.noConfusion hh)
  | .ok _, .error _ => .isFalse (fun hh => Except.noConfusion hh)
  | .ok a, .ok b =>
    if h : a = b then .isTrue (by rw [h])
    else .isFalse (fun hh => h ((Except.ok.injEq _ _).mp hh))
/-! ## Concrete objects used to instantiate the theorems -/

/-- A concrete all-zeros key-matrix row of width 128. -/
def zRow : List Bytes := List.replicate 128 (List.replicate 16 (0 : Byte))

/-- A concrete all-ones key-matrix row of width 128. -/
def oRow : List Bytes := List.replicate 128 (List.replicate 16 (1 : Byte))

/-- A concrete error-free base-PRF core returning its first argument. -/
def cF : Bytes → Bytes → Bytes := fun a _ => a

/-- The concrete base PRF built from `cF`. -/
def okFst : Prf := fun a b => Except.ok (cF a b)

/-- A concrete random tape. -/
def cRnd : Nat → Bytes := fun _ => List.replicate 16 (2 : Byte)

/-- A concrete block cipher for instantiating `cmacPRF`. -/
def cE : Bytes → Bytes → Bytes := fun _ _ => List.replicate 16 (0 : Byte)
/-- A concrete all-zero-bits 16-byte value. -/
def cV0 : Bytes := List.replicate 16 (0 : Byte)
/-- A concrete matching pattern and value for the consistency claim. -/
def cP : List Char := ['1', '0']

/-- A concrete 16-byte value starting with bits 10100101. -/
def cV : Bytes := (0xA5 : Byte) :: List.replicate 15 (0 : Byte)

/-- A concrete two-argument random tape for `keyGen`. -/
def cRnd2 : Nat → Nat → Bytes := fun _ _ => List.replicate 16 (7 : Byte)

/-! ## Basic lemmas about the checked list operations -/

theorem getEntry_ok_iff {l : List α} {i : Nat} {x : α} :
    getEntry l i = .ok x ↔ l.get? i = some x := by
  unfold getEntry
  cases h : l.get? i <;> simp

theorem getEntry_ok_lt {l : List α} {i : Nat} {x : α}
    (h : getEntry l i = .ok x) : i < l.length := by
  rw [getEntry_ok_iff] at h
  exact List.get?_eq_some.mp h |>.1

theorem getEntry_err {l : List α} {i : Nat} {e : Error}
    (h : getEntry l i = .error e) : e = .indexError := by
  unfold getEntry at h
  cases hg : l.get? i <;> rw [hg] at h
  · exact (Except.error.injEq _ _).mp h |>.symm
  · exact Except.noConfusion h

theorem getEntry_of_lt {l : List α} {i : Nat} (h : i < l.length) (d : α) :
    getEntry l i = .ok (l.getD i d) := by
  rw [getEntry_ok_iff, List.getD_eq_get?]
  cases hg : l.get? i with
  | some x => rfl
  | none => exact absurd (List.get?_eq_none.mp hg) (by omega)

theorem setEntry_ok_iff {l : List α} {i : Nat} {a : α} {l' : List α} :
    setEntry l i a = .ok l' ↔ i < l.length ∧ l' = l.set i a := by
  unfold setEntry
  by_cases h : i < l.length <;> simp [h]
  exact comm

theorem setEntry_err {l : List α} {i : Nat} {a : α} {e : Error}
    (h : setEntry l i a = .error e) : e = .indexError := by
  unfold setEntry at h
  by_cases hi : i < l.length <;> simp [hi] at h
  exact h.symm

theorem ok_bind {α β : Type} (a : α) (f : α → Except Error β) :
    (Except.ok a >>= f) = f a := rfl

theorem error_bind {α β : Type} (e : Error) (f : α → Except Error β) :
    ((Except.error e : Except Error α) >>= f) = .error e := rfl

theorem getEntry_pair0 (x y : α) : getEntry [x, y] 0 = .ok x := rfl

theorem getEntry_pair1 (x y : α) : getEntry [x, y] 1 = .ok y := rfl

/-! ## The copy step of `constrain` -/

theorem copyCols_ok (row : List Bytes) : ∀ (k c : Nat), c + k ≤ row.length →
    ∃ out, copyCols row c k = .ok out ∧ out.length = k ∧
      ∀ j, out.get? j = if j < k then row.get? (c + j) else none
  | 0, c, _ => ⟨[], rfl, rfl, fun j => by simp⟩
  | k + 1, c, h => by
    have hc : c < row.length := by omega
    obtain ⟨out, hout, hlen, hget⟩ := copyCols_ok row k (c + 1) (by omega)
    refine ⟨row.getD c [] :: out, ?_, by simp [hlen], ?_⟩
    · simp only [copyCols, getEntry_of_lt hc ([] : Bytes), ok_bind, hout]
    · intro j
      cases j with
      | zero =>
        have := getEntry_ok_iff.mp (getEntry_of_lt hc ([] : Bytes))
        simpa using this.symm
      | succ j =>
        have harith : c + 1 + j = c + (j + 1) := by omega
        simpa [harith] using hget j

theorem copyRow_exact {row : List Bytes} (h : row.length = 128) :
    copyRow row = .ok row := by
  obtain ⟨out, hout, hlen, hget⟩ := copyCols_ok row 128 0 (by omega)
  have : out = row := by
    apply List.ext
    intro j
    rw [hget j]
    by_cases hj : j < 128
    · simp [hj]
    · rw [if_neg hj]
      exact (List.get?_eq_none.mpr (by omega)).symm
  rw [copyRow, hout, this]

theorem copyMatrix_pair {r0 r1 : List Bytes} (h0 : r0.length = 128) (h1 : r1.length = 128) :
    copyMatrix [r0, r1] = .ok [r0, r1] := by
  simp only [copyMatrix, getEntry_pair0, getEntry_pair1, ok_bind,
    copyRow_exact h0, copyRow_exact h1]

/-! ## The fill loop of `constrain` -/

theorem hitChar_nil (ch : Char) (i j : Nat) : hitChar ch [] i j = false := by
  unfold hitChar
  simp

theorem hitChar_lt {ch : Char} {p : List Char} {i j : Nat} (h : j < i) :
    hitChar ch p i j = false := by
  unfold hitChar
  rw [decide_eq_false (by omega)]
  simp

theorem hitChar_self (ch c : Char) (p : List Char) (i : Nat) :
    hitChar ch (c :: p) i i = (c == ch) := by
  unfold hitChar
  rw [decide_eq_true (Nat.le_refl i), Nat.sub_self]
  simp

theorem hitChar_gt {ch c : Char} {p : List Char} {i j : Nat} (h : i < j) :
    hitChar ch (c :: p) i j = hitChar ch p (i + 1) j := by
  unfold hitChar
  rw [decide_eq_true (by omega : i ≤ j), decide_eq_true (by omega : i + 1 ≤ j)]
  have harith : j - i = (j - (i + 1)) + 1 := by omega
  rw [harith]
  rfl

theorem hitChar_cons_ne {ch c : Char} (hne : c ≠ ch) (p : List Char) (i j : Nat) :
    hitChar ch (c :: p) i j = hitChar ch p (i + 1) j := by
  rcases Nat.lt_trichotomy j i with h | h | h
  · rw [hitChar_lt h, hitChar_lt (by omega)]
  · subst h
    rw [hitChar_self, hitChar_lt (Nat.lt_succ_self j)]
    simpa using hne
  · exact hitChar_gt h

theorem hitChar_cons_eq (ch : Char) (p : List Char) (i j : Nat) :
    hitChar ch (ch :: p) i j = if j = i then true else hitChar ch p (i + 1) j := by
  rcases Nat.lt_trichotomy j i with h | h | h
  · rw [hitChar_lt h, if_neg (by omega), hitChar_lt (by omega)]
  · subst h
    rw [hitChar_self, if_pos rfl]
    simp
  · rw [if_neg (by omega)]
    exact hitChar_gt h

theorem fillKey_ok (rnd : Nat → Bytes) (p : List Char) : ∀ (i : Nat) (r0 r1 : List Bytes),
    i + p.length ≤ r0.length → i + p.length ≤ r1.length →
    ∃ r0' r1', fillKey rnd p i [r0, r1] = .ok [r0', r1'] ∧
      r0'.length = r0.length ∧ r1'.length = r1.length ∧
      (∀ j, r0'.get? j = if hitChar '1' p i j then some (rnd j) else r0.get? j) ∧
      (∀ j, r1'.get? j = if hitChar '0' p i j then some (rnd j) else r1.get? j) := by
  induction p with
  | nil =>
    intro i r0 r1 _ _
    exact ⟨r0, r1, rfl, rfl, rfl, fun j => by rw [hitChar_nil]; rfl,
      fun j => by rw [hitChar_nil]; rfl⟩
  | cons c rest ih =>
    intro i r0 r1 h0 h1
    by_cases hc1 : c = '1'
    · subst hc1
      have hi0 : i < r0.length := by simp at h0; omega
      obtain ⟨r0', r1', heq, hl0, hl1, hg0, hg1⟩ :=
        ih (i + 1) (r0.set i (rnd i)) r1 (by simp at h0 ⊢; omega) (by simp at h1 ⊢; omega)
      refine ⟨r0', r1', ?_, by rw [hl0]; simp, hl1, ?_, ?_⟩
      · simp only [fillKey, if_pos rfl, getEntry_pair0, ok_bind,
          setEntry_ok_iff.mpr ⟨hi0, rfl⟩]
        simpa [List.set] using heq
      · intro j
        rw [hg0 j, hitChar_cons_eq]
        by_cases hj : j = i
        · subst hj
          rw [hitChar_lt (Nat.lt_succ_self j), if_neg (by decide), if_pos (by simp),
            List.get?_set_eq_of_lt _ hi0]
        · rw [if_neg hj]
          by_cases hh : hitChar '1' rest (i + 1) j
          · rw [hh]; rfl
          · rw [Bool.not_eq_true] at hh
            rw [hh, if_neg (by decide), if_neg (by decide)]
            exact List.get?_set_ne _ _ (fun h => hj h.symm)
      · intro j
        rw [hg1 j, hitChar_cons_ne (by decide) rest i j]
    · by_cases hc0 : c = '0'
      · subst hc0
        have hi1 : i < r1.length := by simp at h1; omega
        obtain ⟨r0', r1', heq, hl0, hl1, hg0, hg1⟩ :=
          ih (i + 1) r0 (r1.set i (rnd i)) (by simp at h0 ⊢; omega) (by simp at h1 ⊢; omega)
        refine ⟨r0', r1', ?_, hl0, by rw [hl1]; simp, ?_, ?_⟩
        · simp only [fillKey, if_neg (by decide : ¬('0' = '1')), if_pos rfl,
            getEntry_pair1, ok_bind, setEntry_ok_iff.mpr ⟨hi1, rfl⟩]
          simpa [List.set] using heq
        · intro j
          rw [hg0 j, hitChar_cons_ne (by decide) rest i j]
        · intro j
          rw [hg1 j, hitChar_cons_eq]
          by_cases hj : j = i
          · subst hj
            rw [hitChar_lt (Nat.lt_succ_self j), if_neg (by decide), if_pos (by simp),
              List.get?_set_eq_of_lt _ hi1]
          · rw [if_neg hj]
            by_cases hh : hitChar '0' rest (i + 1) j
            · rw [hh]; rfl
            · rw [Bool.not_eq_true] at hh
              rw [hh, if_neg (by decide), if_neg (by decide)]
              exact List.get?_set_ne _ _ (fun h => hj h.symm)
      · obtain ⟨r0', r1', heq, hl0, hl1, hg0, hg1⟩ :=
          ih (i + 1) r0 r1 (by simp at h0 ⊢; omega) (by simp at h1 ⊢; omega)
        refine ⟨r0', r1', ?_, hl0, hl1, ?_, ?_⟩
        · simp only [fillKey, if_neg hc1, if_neg hc0]
          exact heq
        · intro j
          rw [hg0 j, hitChar_cons_ne hc1 rest i j]
        · intro j
          rw [hg1 j, hitChar_cons_ne hc0 rest i j]

/-! ## Bit expansion -/

theorem bitsOf_cons (b : Byte) (v : Bytes) : bitsOf (b :: v) = byteBits b ++ bitsOf v := by
  simp [bitsOf]

theorem byteBits_length (b : Byte) : (byteBits b).length = 8 := by
  simp [byteBits]

theorem bitsOf_length (v : Bytes) : (bitsOf v).length = 8 * v.length := by
  induction v with
  | nil => simp [bitsOf]
  | cons b v ih =>
    rw [bitsOf_cons]
    simp only [List.length_append, byteBits_length, ih, List.length_cons]
    omega

theorem byteBits_le_one (b : Byte) : ∀ x ∈ byteBits b, x ≤ 1 := by
  intro x hx
  simp only [byteBits, List.mem_map, List.mem_range] at hx
  obtain ⟨k, _, rfl⟩ := hx
  omega

theorem bitsOf_le_one (v : Bytes) : ∀ x ∈ bitsOf v, x ≤ 1 := by
  induction v with
  | nil => simp [bitsOf]
  | cons b v ih =>
    intro x hx
    rw [bitsOf_cons] at hx
    rcases List.mem_append.mp hx with h | h
    · exact byteBits_le_one b x h
    · exact ih x h

/-! ## The leaf layer -/

theorem getEntry2_pair {r0 r1 : List Bytes} {b i : Nat} (hb : b ≤ 1)
    (h0 : i < r0.length) (h1 : i < r1.length) :
    getEntry2 [r0, r1] b i = .ok (mEntry r0 r1 b i) := by
  rcases Nat.le_one_iff_eq_zero_or_eq_one.mp hb with rfl | rfl
  · rw [getEntry2, getEntry_pair0, ok_bind, getEntry_of_lt h0 ([] : Bytes)]
    rfl
  · rw [getEntry2, getEntry_pair1, ok_bind, getEntry_of_lt h1 ([] : Bytes)]
    rfl

/-- Evaluation reads the key matrix only at the entries selected by the
input's bits: two matrices agreeing at those entries give identical leaf
layers. -/
theorem leafLayer_congr (prf : Prf) (m1 m2 : List (List Bytes)) :
    ∀ (bits : List Nat) (i : Nat),
      (∀ k b, bits.get? k = some b → getEntry2 m1 b (i + k) = getEntry2 m2 b (i + k)) →
      leafLayer prf m1 i bits = leafLayer prf m2 i bits
  | [], _, _ => rfl
  | [_], _, _ => rfl
  | b0 :: b1 :: rest, i, h => by
    have h0 : getEntry2 m1 b0 i = getEntry2 m2 b0 i := by simpa using h 0 b0 rfl
    have h1 : getEntry2 m1 b1 (i + 1) = getEntry2 m2 b1 (i + 1) := by simpa using h 1 b1 rfl
    have ih := leafLayer_congr prf m1 m2 rest (i + 2) (fun k b hk => by
      have := h (k + 2) b (by simpa using hk)
      simpa [show i + (k + 2) = i + 2 + k from by omega] using this)
    simp only [leafLayer]
    rw [h0, h1, ih]

/-- Success and shape of the leaf layer on a two-row matrix: with an
error-free base PRF, leaf `j` is the PRF applied to the entries selected
by bits `2j` and `2j+1` at columns `2j` and `2j+1`. -/
theorem leafLayer_ok (f : Bytes → Bytes → Bytes) (r0 r1 : List Bytes) :
    ∀ (bits : List Nat) (i : Nat),
      (∀ x ∈ bits, x ≤ 1) → bits.length % 2 = 0 →
      i + bits.length ≤ r0.length → i + bits.length ≤ r1.length →
      ∃ L, leafLayer (fun a b => .ok (f a b)) [r0, r1] i bits = .ok L ∧
        2 * L.length = bits.length ∧
        (∀ j, 2 * j + 1 < bits.length →
          L.get? j = some (f (mEntry r0 r1 (bits.getD (2 * j) 0) (i + 2 * j))
                             (mEntry r0 r1 (bits.getD (2 * j + 1) 0) (i + 2 * j + 1)))) ∧
        (∀ x ∈ L, ∃ a b, x = f a b)
  | [], i, _, _, _, _ => ⟨[], rfl, rfl, fun j hj => by simp at hj, by simp⟩
  | [_], _, _, heven, _, _ => by simp at heven
  | b0 :: b1 :: rest, i, hbits, heven, hr0, hr1 => by
    have hb0 : b0 ≤ 1 := hbits b0 (by simp)
    have hb1 : b1 ≤ 1 := hbits b1 (by simp)
    have hlen : rest.length + 2 = (b0 :: b1 :: rest).length := by simp
    have hi0 : i < r0.length := by simp at hr0; omega
    have hi0' : i + 1 < r0.length := by simp at hr0; omega
    have hi1 : i < r1.length := by simp at hr1; omega
    have hi1' : i + 1 < r1.length := by simp at hr1; omega
    obtain ⟨L, hL, hLlen, hLget, hLmem⟩ :=
      leafLayer_ok f r0 r1 rest (i + 2)
        (fun x hx => hbits x (by simp [hx]))
        (by simp at heven ⊢; omega)
        (by simp at hr0 ⊢; omega) (by simp at hr1 ⊢; omega)
    refine ⟨f (mEntry r0 r1 b0 i) (mEntry r0 r1 b1 (i + 1)) :: L, ?_, by simp; omega, ?_, ?_⟩
    · simp only [leafLayer, getEntry2_pair hb0 hi0 hi1, ok_bind,
        getEntry2_pair hb1 hi0' hi1', hL]
    · intro j hj
      cases j with
      | zero => simp
      | succ j =>
        have hcond : 2 * j + 1 < rest.length := by simp at hj; omega
        have := hLget j hcond
        have e1 : (2 : Nat) * (j + 1) = 2 * j + 1 + 1 := by omega
        have e2 : i + 2 + 2 * j = i + 2 * (j + 1) := by omega
        rw [e2] at this
        simpa [e1] using this
    · intro x hx
      rcases List.mem_cons.mp hx with rfl | hx
      · exact ⟨_, _, rfl⟩
      · exact hLmem x hx

/-! ## The reduction layer -/

theorem synthRound_ok (f : Bytes → Bytes → Bytes) : ∀ (ls : List Bytes),
    ls.length % 2 = 0 →
    ∃ next, synthRound (fun a b => .ok (f a b)) ls = .ok next ∧
      2 * next.length = ls.length ∧ ∀ x ∈ next, ∃ a b, x = f a b
  | [], _ => ⟨[], rfl, rfl, by simp⟩
  | [_], h => by simp at h
  | a :: b :: rest, h => by
    obtain ⟨next, hnext, hlen, hmem⟩ := synthRound_ok f rest (by simp at h ⊢; omega)
    refine ⟨f a b :: next, ?_, by simp; omega, ?_⟩
    · simp only [synthRound, ok_bind, hnext]
    · intro x hx
      rcases List.mem_cons.mp hx with rfl | hx
      · exact ⟨a, b, rfl⟩
      · exact hmem x hx

theorem synthRoot_ok (f : Bytes → Bytes → Bytes) : ∀ (k : Nat) (ls : List Bytes),
    ls.length = 2 ^ k →
    ∃ out, synthRoot (fun a b => .ok (f a b)) ls = .ok out ∧
      (out ∈ ls ∨ ∃ a b, out = f a b) := by
  intro k
  induction k with
  | zero =>
    intro ls hls
    match ls, hls with
    | [x], _ =>
      refine ⟨x, ?_, Or.inl (by simp)⟩
      rw [synthRoot]
      simp [getEntry]
  | succ k ih =>
    intro ls hls
    have hpow : (2 : Nat) ^ (k + 1) = 2 * 2 ^ k := by ring
    have hone : (1 : Nat) ≤ 2 ^ k := Nat.one_le_two_pow
    have hlen2 : 1 < ls.length := by omega
    have heven : ls.length % 2 = 0 := by rw [hls, hpow]; omega
    obtain ⟨next, hnext, hlen, hmem⟩ := synthRound_ok f ls heven
    have hnextlen : next.length = 2 ^ k := by omega
    obtain ⟨out, hout, hcase⟩ := ih next hnextlen
    refine ⟨out, ?_, ?_⟩
    · rw [synthRoot, dif_pos hlen2]
      split
      · rename_i e heq
        rw [hnext] at heq
        exact Except.noConfusion heq
      · rename_i next' heq
        rw [hnext] at heq
        cases heq
        exact hout
    · rcases hcase with hmem' | hfb
      · exact Or.inr (hmem out hmem')
      · exact Or.inr hfb

/-! ## Which errors each operation can produce -/

theorem getEntry2_err {m : List (List Bytes)} {b i : Nat} {e : Error}
    (h : getEntry2 m b i = .error e) : e = .indexError := by
  unfold getEntry2 at h
  rcases exceptBind_err h with h | ⟨row, _, h⟩
  · exact getEntry_err h
  · exact getEntry_err h

theorem leafLayer_err (prf : Prf) (m : List (List Bytes)) :
    ∀ (bits : List Nat) (i : Nat) (e : Error),
      leafLayer prf m i bits = .error e →
      e = .indexError ∨ ∃ a b, prf a b = .error e
  | [], _, e, h => by
    simp only [leafLayer] at h
    exact Except.noConfusion h
  | [_], _, e, h => by
    simp only [leafLayer] at h
    exact Or.inl ((Except.error.injEq _ _).mp h).symm
  | b0 :: b1 :: rest, i, e, h => by
    simp only [leafLayer] at h
    rcases exceptBind_err h with h | ⟨k, _, h⟩
    · exact Or.inl (getEntry2_err h)
    rcases exceptBind_err h with h | ⟨msg, _, h⟩
    · exact Or.inl (getEntry2_err h)
    rcases exceptBind_err h with h | ⟨leaf, _, h⟩
    · exact Or.inr ⟨k, msg, h⟩
    rcases exceptBind_err h with h | ⟨r, _, h⟩
    · exact leafLayer_err prf m rest (i + 2) e h
    · exact Except.noConfusion h

theorem synthRound_err (prf : Prf) : ∀ (ls : List Bytes) (e : Error),
    synthRound prf ls = .error e → e = .indexError ∨ ∃ a b, prf a b = .error e
  | [], e, h => by
    simp only [synthRound] at h
    exact Except.noConfusion h
  | [_], e, h => by
    simp only [synthRound] at h
    exact Or.inl ((Except.error.injEq _ _).mp h).symm
  | a :: b :: rest, e, h => by
    simp only [synthRound] at h
    rcases exceptBind_err h with h | ⟨x, _, h⟩
    · exact Or.inr ⟨a, b, h⟩
    rcases exceptBind_err h with h | ⟨r, _, h⟩
    · exact synthRound_err prf rest e h
    · exact Except.noConfusion h

theorem synthRoot_err_aux (prf : Prf) : ∀ (n : Nat) (ls : List Bytes) (e : Error),
    ls.length ≤ n → synthRoot prf ls = .error e →
    e = .indexError ∨ ∃ a b, prf a b = .error e := by
  intro n
  induction n with
  | zero =>
    intro ls e hn h
    rw [synthRoot, dif_neg (by omega)] at h
    exact Or.inl (getEntry_err h)
  | succ n ihn =>
    intro ls e hn h
    rw [synthRoot] at h
    by_cases h1 : 1 < ls.length
    · rw [dif_pos h1] at h
      split at h
      · rename_i e' heq
        rcases synthRound_err prf ls e' heq with he | hab
        · exact Or.inl (((Except.error.injEq _ _).mp h).symm.trans he)
        · rw [(Except.error.injEq _ _).mp h] at hab
          exact Or.inr hab
      · rename_i next heq
        have hlen := synthRound_len prf ls next heq
        exact ihn next e (by omega) h
    · rw [dif_neg h1] at h
      exact Or.inl (getEntry_err h)

theorem synthRoot_err {prf : Prf} {ls : List Bytes} {e : Error}
    (h : synthRoot prf ls = .error e) :
    e = .indexError ∨ ∃ a b, prf a b = .error e :=
  synthRoot_err_aux prf ls.length ls e (Nat.le_refl _) h

theorem cprfEval_err {prf : Prf} {m : List (List Bytes)} {v : Bytes} {e : Error}
    (h : cprfEval (prf, m) v = .error e) :
    e = .indexError ∨ ∃ a b, prf a b = .error e := by
  simp only [cprfEval] at h
  rcases exceptBind_err h with h | ⟨ls, _, h⟩
  · exact leafLayer_err prf m (bitsOf v) 0 e h
  · exact synthRoot_err h

theorem copyCols_err (row : List Bytes) : ∀ (k c : Nat) (e : Error),
    copyCols row c k = .error e → e = .indexError
  | 0, _, e, h => by
    simp only [copyCols] at h
    exact Except.noConfusion h
  | k + 1, c, e, h => by
    simp only [copyCols] at h
    rcases exceptBind_err h with h | ⟨x, _, h⟩
    · exact getEntry_err h
    rcases exceptBind_err h with h | ⟨r, _, h⟩
    · exact copyCols_err row k (c + 1) e h
    · exact Except.noConfusion h

theorem copyMatrix_err {m : List (List Bytes)} {e : Error}
    (h : copyMatrix m = .error e) : e = .indexError := by
  simp only [copyMatrix] at h
  rcases exceptBind_err h with h | ⟨r0, _, h⟩
  · exact getEntry_err h
  rcases exceptBind_err h with h | ⟨c0, _, h⟩
  · exact copyCols_err _ _ _ _ h
  rcases exceptBind_err h with h | ⟨r1, _, h⟩
  · exact getEntry_err h
  rcases exceptBind_err h with h | ⟨c1, _, h⟩
  · exact copyCols_err _ _ _ _ h
  · exact Except.noConfusion h

theorem fillKey_err (rnd : Nat → Bytes) : ∀ (p : List Char) (i : Nat)
    (nk : List (List Bytes)) (e : Error),
    fillKey rnd p i nk = .error e → e = .indexError
  | [], _, _, e, h => by
    simp only [fillKey] at h
    exact Except.noConfusion h
  | c :: rest, i, nk, e, h => by
    simp only [fillKey] at h
    by_cases hc1 : c = '1'
    · rw [if_pos hc1] at h
      rcases exceptBind_err h with h | ⟨row, _, h⟩
      · exact getEntry_err h
      rcases exceptBind_err h with h | ⟨row', _, h⟩
      · exact setEntry_err h
      · exact fillKey_err rnd rest (i + 1) _ e h
    · rw [if_neg hc1] at h
      by_cases hc0 : c = '0'
      · rw [if_pos hc0] at h
        rcases exceptBind_err h with h | ⟨row, _, h⟩
        · exact getEntry_err h
        rcases exceptBind_err h with h | ⟨row', _, h⟩
        · exact setEntry_err h
        · exact fillKey_err rnd rest (i + 1) _ e h
      · rw [if_neg hc0] at h
        exact fillKey_err rnd rest (i + 1) _ e h

theorem constrain_err {msk : Key} {p : List Char} {rnd : Nat → Bytes} {e : Error}
    (h : constrain msk p rnd = .error e) : e = .indexError := by
  obtain ⟨prf, m⟩ := msk
  simp only [constrain] at h
  rcases exceptBind_err h with h | ⟨nk, _, h⟩
  · exact copyMatrix_err h
  rcases exceptBind_err h with h | ⟨nk', _, h⟩
  · exact fillKey_err rnd p 0 nk e h
  · exact Except.noConfusion h

/-! ## The pattern-matching condition -/

theorem matchesP_fix : ∀ (p : List Char) (bits : List Nat), matchesP p bits = true →
    ∀ k, (p.get? k = some '1' → bits.get? k = some 1) ∧
         (p.get? k = some '0' → bits.get? k = some 0)
  | [], _, _, k => by simp
  | _ :: _, [], h, k => by simp [matchesP] at h
  | c :: p, b :: bs, h, k => by
    simp only [matchesP, Bool.and_eq_true] at h
    obtain ⟨hhead, hrec⟩ := h
    cases k with
    | zero =>
      constructor
      · intro hk
        simp only [List.get?_cons_zero, Option.some.injEq] at hk
        subst hk
        rw [if_pos rfl] at hhead
        have hb : b = 1 := by simpa using hhead
        simp [hb]
      · intro hk
        simp only [List.get?_cons_zero, Option.some.injEq] at hk
        subst hk
        rw [if_neg (by decide), if_pos rfl] at hhead
        have hb : b = 0 := by simpa using hhead
        simp [hb]
    | succ k =>
      constructor
      · intro hk
        simpa using (matchesP_fix p bs hrec k).1 (by simpa using hk)
      · intro hk
        simpa using (matchesP_fix p bs hrec k).2 (by simpa using hk)

/-! ## Heap-model lemmas -/

theorem fillKeyS_pres (rnd : Nat → Bytes) : ∀ (p : List Char) (i : Nat)
    (addrs : Nat × Nat) (s s' : Store),
    fillKeyS rnd p i addrs s = .ok s' →
    ∀ a, a ≠ addrs.1 → a ≠ addrs.2 → s'.get? a = s.get? a
  | [], _, _, s, s', h => by
    simp only [fillKeyS] at h
    cases h
    intro a _ _
    rfl
  | c :: rest, i, addrs, s, s', h => by
    intro a ha1 ha2
    simp only [fillKeyS] at h
    by_cases hc1 : c = '1'
    · rw [if_pos hc1] at h
      obtain ⟨row, _, h⟩ := exceptBind_ok h
      obtain ⟨row', _, h⟩ := exceptBind_ok h
      obtain ⟨s1, hs1, h⟩ := exceptBind_ok h
      rw [fillKeyS_pres rnd rest (i + 1) addrs s1 s' h a ha1 ha2]
      obtain ⟨_, rfl⟩ := setEntry_ok_iff.mp hs1
      exact List.get?_set_ne _ _ (fun hh => ha1 hh.symm)
    · rw [if_neg hc1] at h
      by_cases hc0 : c = '0'
      · rw [if_pos hc0] at h
        obtain ⟨row, _, h⟩ := exceptBind_ok h
        obtain ⟨row', _, h⟩ := exceptBind_ok h
        obtain ⟨s1, hs1, h⟩ := exceptBind_ok h
        rw [fillKeyS_pres rnd rest (i + 1) addrs s1 s' h a ha1 ha2]
        obtain ⟨_, rfl⟩ := setEntry_ok_iff.mp hs1
        exact List.get?_set_ne _ _ (fun hh => ha2 hh.symm)
      · rw [if_neg hc0] at h
        exact fillKeyS_pres rnd rest (i + 1) addrs s s' h a ha1 ha2

/-! ## The claims -/

/-- C8.  Determinism of eval: in the state-passing embedding over the
ambient randomness source, the result of `eval(key, value)` is the same
for any two tapes and counters (and the counter is left unchanged):
`eval` is a pure function of (key, value) with no other input. -/
theorem eval_deterministic (key : Key) (val : Bytes)
    (tape1 tape2 : Nat → Bytes) (ctr1 ctr2 : Nat) :
    (cprfEvalR tape1 ctr1 key val).1 = (cprfEvalR tape2 ctr2 key val).1 ∧
    (cprfEvalR tape1 ctr1 key val).2 = ctr1 :=
  ⟨rfl, rfl⟩

/-- C9.  Base PRF key validation: `cmacPRF` fails with `KeyLengthError`
on every key that is not exactly 16 bytes, and on every 16-byte key it
returns a full-block 16-byte tag (whenever the underlying block cipher
returns 16-byte blocks). -/
theorem cmacPRF_key_validation (E : Bytes → Bytes → Bytes) (key val : Bytes) :
    (key.length ≠ 16 → cmacPRF E key val = .error .keyLengthError) ∧
    (key.length = 16 → (∀ b, (E key b).length = 16) →
      ∃ t, cmacPRF E key val = .ok t ∧ t.length = 16) := by
  constructor
  · intro h
    simp [cmacPRF, h]
  · intro h hE
    refine ⟨cmacTag E key val, by simp [cmacPRF, h], ?_⟩
    simp only [cmacTag]
    exact hE _

theorem cmacPRF_key_validation_witness :
    ((List.replicate 15 (0 : Byte)).length ≠ 16 ∧
      cmacPRF cE (List.replicate 15 (0 : Byte)) [] = .error .keyLengthError) ∧
    ((List.replicate 16 (0 : Byte)).length = 16 ∧
      ∃ t, cmacPRF cE (List.replicate 16 (0 : Byte)) [] = .ok t ∧ t.length = 16) :=
  ⟨⟨by decide, (cmacPRF_key_validation cE (List.replicate 15 (0 : Byte)) []).1 (by simp)⟩,
   ⟨by decide, (cmacPRF_key_validation cE (List.replicate 16 (0 : Byte)) []).2 (by simp)
      (fun b => by simp [cE])⟩⟩

/-- C4.  Constrain rerandomization rule: for a 2 x 128 master-key matrix
and a pattern of length at most 128, `constrain` succeeds and produces a
matrix in which row 0 holds a fresh random value exactly at the columns
where the pattern is '1', row 1 holds a fresh random value exactly at
the columns where the pattern is '0', and every other entry of both rows
(including all columns at or beyond the pattern length) is unchanged. -/
theorem constrain_rerandomization (prf : Prf) (r0 r1 : List Bytes) (p : List Char)
    (rnd : Nat → Bytes) (h0 : r0.length = 128) (h1 : r1.length = 128)
    (hp : p.length ≤ 128) :
    ∃ r0' r1', constrain (prf, [r0, r1]) p rnd = .ok (prf, [r0', r1']) ∧
      r0'.length = 128 ∧ r1'.length = 128 ∧
      (∀ i, r0'.get? i = if p.get? i = some '1' then some (rnd i) else r0.get? i) ∧
      (∀ i, r1'.get? i = if p.get? i = some '0' then some (rnd i) else r1.get? i) := by
  obtain ⟨r0', r1', heq, hl0, hl1, hg0, hg1⟩ :=
    fillKey_ok rnd p 0 r0 r1 (by omega) (by omega)
  refine ⟨r0', r1', ?_, by omega, by omega, ?_, ?_⟩
  · simp only [constrain, copyMatrix_pair h0 h1, ok_bind, heq]
  · intro i
    rw [hg0 i]
    by_cases hc : p.get? i = some '1'
    · simp [hitChar, hc]
    · simp [hitChar, hc]
  · intro i
    rw [hg1 i]
    by_cases hc : p.get? i = some '0'
    · simp [hitChar, hc]
    · simp [hitChar, hc]

theorem constrain_rerandomization_witness :
    ∃ r0' r1', constrain (okFst, [zRow, oRow]) ['1'] cRnd = .ok (okFst, [r0', r1']) ∧
      r0'.length = 128 ∧ r1'.length = 128 ∧
      (∀ i, r0'.get? i = if (['1'] : List Char).get? i = some '1'
        then some (cRnd i) else zRow.get? i) ∧
      (∀ i, r1'.get? i = if (['1'] : List Char).get? i = some '0'
        then some (cRnd i) else oRow.get? i) :=
  constrain_rerandomization okFst zRow oRow ['1'] cRnd (by simp [zRow]) (by simp [oRow])
    (by simp)

/-- C5 counterexample.  The pattern character 'a' lies outside
{0,1,*}, yet `constrain` does not fail with `InvalidPatternError`: it
succeeds and returns the unchanged copied matrix, refuting the claimed
alphabet validation. -/
theorem constrain_accepts_bad_char :
    ('a' ≠ '0' ∧ 'a' ≠ '1' ∧ 'a' ≠ '*') ∧
    constrain (okFst, [zRow, oRow]) ['a'] cRnd = .ok (okFst, [zRow, oRow]) := by
  refine ⟨⟨by decide, by decide, by decide⟩, ?_⟩
  simp only [constrain,
    copyMatrix_pair (by simp [zRow] : zRow.length = 128) (by simp [oRow] : oRow.length = 128),
    ok_bind, fillKey, if_neg (by decide : ¬('a' = '1')), if_neg (by decide : ¬('a' = '0'))]

/-- C5 amended.  `constrain` performs no pattern-alphabet validation: it
never fails with `InvalidPatternError`, and any character other than '1'
and '0' (including characters outside the pattern alphabet) is treated
exactly like '*', leaving both rows unchanged at that position. -/
theorem constrain_no_alphabet_check (prf : Prf) (m : List (List Bytes))
    (p : List Char) (rnd : Nat → Bytes) :
    constrain (prf, m) p rnd ≠ .error .invalidPatternError ∧
    (∀ r0 r1, m = [r0, r1] → r0.length = 128 → r1.length = 128 →
      (∀ c ∈ p, c ≠ '1' ∧ c ≠ '0') →
      constrain (prf, m) p rnd = .ok (prf, [r0, r1])) := by
  constructor
  · intro h
    exact absurd (constrain_err h) (by decide)
  · intro r0 r1 hm h0 h1 hstar
    subst hm
    have hfill : ∀ (q : List Char), (∀ c ∈ q, c ≠ '1' ∧ c ≠ '0') → ∀ (i : Nat),
        fillKey rnd q i [r0, r1] = .ok [r0, r1] := by
      intro q
      induction q with
      | nil => intro _ i; rfl
      | cons c rest ih =>
        intro hq i
        have hc := hq c (by simp)
        simp only [fillKey, if_neg hc.1, if_neg hc.2]
        exact ih (fun c' hc' => hq c' (by simp [hc'])) (i + 1)
    simp only [constrain, copyMatrix_pair h0 h1, ok_bind, hfill p hstar 0]

theorem constrain_no_alphabet_check_witness :
    constrain (okFst, [zRow, oRow]) ['a', '*'] cRnd ≠ .error .invalidPatternError ∧
    constrain (okFst, [zRow, oRow]) ['a', '*'] cRnd = .ok (okFst, [zRow, oRow]) :=
  ⟨(constrain_no_alphabet_check okFst [zRow, oRow] ['a', '*'] cRnd).1,
   (constrain_no_alphabet_check okFst [zRow, oRow] ['a', '*'] cRnd).2 zRow oRow rfl
     (by simp [zRow]) (by simp [oRow]) (by decide)⟩

/-- C2 counterexample.  A 1-byte input has bit-length 8, different from
the configured width 128, yet `eval` does not fail with
`InputLengthError`: it completes successfully, refuting the claimed
input-length validation. -/
theorem eval_accepts_short_input :
    8 * ([(0xA5 : Byte)] : Bytes).length ≠ 128 ∧
    ∃ r, cprfEval (okFst, [zRow, oRow]) [(0xA5 : Byte)] = .ok r := by
  refine ⟨by decide, ?_⟩
  have hbits8 : (bitsOf [(0xA5 : Byte)]).length = 8 := by
    rw [bitsOf_length]
    rfl
  obtain ⟨L, hL, hLlen, _, _⟩ := leafLayer_ok cF zRow oRow (bitsOf [(0xA5 : Byte)]) 0
    (bitsOf_le_one _) (by omega) (by simp [zRow]; omega) (by simp [oRow]; omega)
  have hL4 : L.length = 2 ^ 2 := by
    have h4 : L.length = 4 := by omega
    rw [h4]
    decide
  obtain ⟨out, hout, _⟩ := synthRoot_ok cF 2 L hL4
  refine ⟨out, ?_⟩
  have hL' : leafLayer okFst [zRow, oRow] 0 (bitsOf [(0xA5 : Byte)]) = Except.ok L := hL
  have hout' : synthRoot okFst L = Except.ok out := hout
  simp only [cprfEval, hL', ok_bind]
  exact hout'

/-- C2 amended.  `eval` performs no input-length validation: it never
fails with `InputLengthError` (as long as the base PRF carried in the
key never returns that error); inputs of mismatched bit-length are not
rejected, as the counterexample's successful 8-bit evaluation shows. -/
theorem eval_no_input_length_check (prf : Prf) (m : List (List Bytes)) (v : Bytes)
    (hprf : ∀ a b, prf a b ≠ .error .inputLengthError) :
    cprfEval (prf, m) v ≠ .error .inputLengthError := by
  intro h
  rcases cprfEval_err h with he | ⟨a, b, hab⟩
  · exact absurd he (by decide)
  · exact hprf a b hab

theorem eval_no_input_length_check_witness :
    (∀ a b, okFst a b ≠ .error .inputLengthError) ∧
    cprfEval (okFst, [zRow, oRow]) [(0x5A : Byte)] ≠ .error .inputLengthError :=
  ⟨fun _ _ h => Except.noConfusion h,
   eval_no_input_length_check okFst [zRow, oRow] [(0x5A : Byte)]
     (fun _ _ h => Except.noConfusion h)⟩

/-- C10.  Eval output depends only on the selected entries: two keys
with the same base PRF whose matrices agree at entry [b(k)][k] for every
bit position k (where b(k) is the input's k-th bit, most significant
first) evaluate identically on that input; entries in the row not
selected by the input's bit never influence the output. -/
theorem eval_depends_only_on_selected (prf : Prf) (m1 m2 : List (List Bytes))
    (v : Bytes) (hv : v.length = 16)
    (hagree : ∀ k, k < 128 → getEntry2 m1 (bitAt v k) k = getEntry2 m2 (bitAt v k) k) :
    cprfEval (prf, m1) v = cprfEval (prf, m2) v := by
  have hlen : (bitsOf v).length = 128 := by
    rw [bitsOf_length, hv]
  have hcongr := leafLayer_congr prf m1 m2 (bitsOf v) 0 (fun k b hk => by
    obtain ⟨hlt, _⟩ := List.get?_eq_some.mp hk
    have hb : bitAt v k = b := by
      unfold bitAt
      rw [List.getD_eq_get?, hk]
      rfl
    have hk128 : k < 128 := by omega
    have := hagree k hk128
    rw [hb] at this
    simpa using this)
  simp only [cprfEval]
  rw [hcongr]

theorem eval_depends_only_on_selected_witness :
    (cV0.length = 16 ∧
      ([[], []] : List (List Bytes)) ≠ [[], [List.replicate 16 (3 : Byte)]]) ∧
    (∀ k, k < 128 → getEntry2 [[], []] (bitAt cV0 k) k =
      getEntry2 [[], [List.replicate 16 (3 : Byte)]] (bitAt cV0 k) k) ∧
    cprfEval (okFst, [[], []]) cV0 =
      cprfEval (okFst, [[], [List.replicate 16 (3 : Byte)]]) cV0 := by
  have hag : ∀ k, k < 128 → getEntry2 [[], []] (bitAt cV0 k) k =
      getEntry2 [[], [List.replicate 16 (3 : Byte)]] (bitAt cV0 k) k := by decide
  exact ⟨⟨by decide, by decide⟩, hag,
    eval_depends_only_on_selected okFst [[], []] [[], [List.replicate 16 (3 : Byte)]]
      cV0 (by decide) hag⟩

/-- C6.  Leaf layer: on a 16-byte input, `eval` expands the input into
bits b(0)..b(127) most-significant-bit-first and computes, for each even
position, `leaf[i/2] = prf(matrix[b(i)][i], matrix[b(i+1)][i+1])` - the
bit-and-column-selected entry at position i as the PRF key and the one
at position i+1 as the message; the rest of `eval` is the reduction of
that leaf list. -/
theorem eval_leaf_layer (f : Bytes → Bytes → Bytes) (r0 r1 : List Bytes) (v : Bytes)
    (h0 : r0.length = 128) (h1 : r1.length = 128) (hv : v.length = 16) :
    ∃ L, leafLayer (fun a b => Except.ok (f a b)) [r0, r1] 0 (bitsOf v) = .ok L ∧
      L.length = 64 ∧
      (∀ j, j < 64 → L.get? j =
        some (f (mEntry r0 r1 (bitAt v (2 * j)) (2 * j))
                (mEntry r0 r1 (bitAt v (2 * j + 1)) (2 * j + 1)))) ∧
      cprfEval (fun a b => Except.ok (f a b), [r0, r1]) v =
        synthRoot (fun a b => Except.ok (f a b)) L := by
  have hlen : (bitsOf v).length = 128 := by
    rw [bitsOf_length, hv]
  obtain ⟨L, hL, hLlen, hget, _⟩ := leafLayer_ok f r0 r1 (bitsOf v) 0
    (bitsOf_le_one v) (by omega) (by omega) (by omega)
  refine ⟨L, hL, by omega, ?_, ?_⟩
  · intro j hj
    have := hget j (by omega)
    simpa [bitAt] using this
  · simp only [cprfEval, hL, ok_bind]

theorem eval_leaf_layer_witness :
    (zRow.length = 128 ∧ oRow.length = 128 ∧ cV0.length = 16) ∧
    ∃ L, leafLayer (fun a b => Except.ok (cF a b)) [zRow, oRow] 0 (bitsOf cV0) = .ok L ∧
      L.length = 64 ∧
      (∀ j, j < 64 → L.get? j =
        some (cF (mEntry zRow oRow (bitAt cV0 (2 * j)) (2 * j))
                 (mEntry zRow oRow (bitAt cV0 (2 * j + 1)) (2 * j + 1)))) ∧
      cprfEval (fun a b => Except.ok (cF a b), [zRow, oRow]) cV0 =
        synthRoot (fun a b => Except.ok (cF a b)) L :=
  ⟨⟨by simp [zRow], by simp [oRow], by simp [cV0]⟩,
   eval_leaf_layer cF zRow oRow cV0 (by simp [zRow]) (by simp [oRow]) (by simp [cV0])⟩

/-- C7.  The reduction layer terminates at the root: each successful
round exactly halves the sequence; on any leaf sequence of power-of-two
length (of 16-byte values, under a 16-byte-output base PRF) the loop
terminates with a single 16-byte value; in particular `eval` on a
16-byte input (64 leaves) returns exactly one 16-byte value. -/
theorem reduction_reaches_root (f : Bytes → Bytes → Bytes)
    (hf : ∀ a b, (f a b).length = 16) :
    (∀ (ls next : List Bytes),
        synthRound (fun a b => Except.ok (f a b)) ls = .ok next →
        2 * next.length = ls.length) ∧
    (∀ (k : Nat) (ls : List Bytes), ls.length = 2 ^ k → (∀ x ∈ ls, x.length = 16) →
        ∃ out, synthRoot (fun a b => Except.ok (f a b)) ls = .ok out ∧ out.length = 16) ∧
    (∀ (r0 r1 : List Bytes) (v : Bytes), r0.length = 128 → r1.length = 128 →
        v.length = 16 →
        ∃ out, cprfEval (fun a b => Except.ok (f a b), [r0, r1]) v = .ok out ∧
          out.length = 16) := by
  refine ⟨fun ls next h => synthRound_len _ ls next h, ?_, ?_⟩
  · intro k ls hk hx
    obtain ⟨out, hout, hcase⟩ := synthRoot_ok f k ls hk
    refine ⟨out, hout, ?_⟩
    rcases hcase with hmem | ⟨a, b, rfl⟩
    · exact hx out hmem
    · exact hf a b
  · intro r0 r1 v h0 h1 hv
    have hlen : (bitsOf v).length = 128 := by
      rw [bitsOf_length, hv]
    obtain ⟨L, hL, hLlen, _, hmem⟩ := leafLayer_ok f r0 r1 (bitsOf v) 0
      (bitsOf_le_one v) (by omega) (by omega) (by omega)
    have hL64 : L.length = 2 ^ 6 := by
      have h64 : L.length = 64 := by omega
      rw [h64]
      decide
    obtain ⟨out, hout, hcase⟩ := synthRoot_ok f 6 L hL64
    refine ⟨out, ?_, ?_⟩
    · simp only [cprfEval, hL, ok_bind]
      exact hout
    · rcases hcase with hm | ⟨a, b, rfl⟩
      · obtain ⟨a, b, rfl⟩ := hmem out hm
        exact hf a b
      · exact hf a b

theorem reduction_reaches_root_witness :
    (∀ a b, (cE a b).length = 16) ∧
    ∃ out, cprfEval (fun a b => Except.ok (cE a b), [zRow, oRow]) cV0 = .ok out ∧
      out.length = 16 :=
  ⟨fun a b => by simp [cE],
   (reduction_reaches_root cE (fun a b => by simp [cE])).2.2 zRow oRow cV0
     (by simp [zRow]) (by simp [oRow]) (by simp [cV0])⟩

/-- C1.  Constrain consistency: for every master key produced by
`keyGen`, every pattern of length at most 128 over any characters, and
every 16-byte value whose bits (most-significant-bit-first) agree with
the pattern at every position fixed to '0' or '1', constraining succeeds
and the constrained key evaluates to exactly the same output as the
master key on that value (for every choice of the fresh random draws). -/
theorem constrain_consistency (rnd2 : Nat → Nat → Bytes) (E : Bytes → Bytes → Bytes)
    (p : List Char) (rnd : Nat → Bytes) (v : Bytes)
    (hp : p.length ≤ 128) (hv : v.length = 16)
    (hmatch : matchesP p (bitsOf v) = true) :
    ∃ ck, constrain (keyGen rnd2 E) p rnd = .ok ck ∧
      cprfEval ck v = cprfEval (keyGen rnd2 E) v := by
  set r0 := (List.range 128).map (fun c => rnd2 0 c) with hr0def
  set r1 := (List.range 128).map (fun c => rnd2 1 c) with hr1def
  have hkg : keyGen rnd2 E = (cmacPRF E, [r0, r1]) := rfl
  have h0 : r0.length = 128 := by simp [hr0def]
  have h1 : r1.length = 128 := by simp [hr1def]
  obtain ⟨r0', r1', heq, hl0, hl1, hg0, hg1⟩ :=
    fillKey_ok rnd p 0 r0 r1 (by omega) (by omega)
  have hlen : (bitsOf v).length = 128 := by
    rw [bitsOf_length, hv]
  have hagree : ∀ k b, (bitsOf v).get? k = some b →
      getEntry2 [r0', r1'] b (0 + k) = getEntry2 [r0, r1] b (0 + k) := by
    intro k b hk
    have hble : b ≤ 1 := bitsOf_le_one v b (List.get?_mem hk)
    rcases Nat.le_one_iff_eq_zero_or_eq_one.mp hble with rfl | rfl
    · have hne : ¬ (hitChar '1' p 0 k = true) := by
        intro hh
        have hp1 : p.get? k = some '1' := by
          unfold hitChar at hh
          simpa using hh
        have hb1 := (matchesP_fix p (bitsOf v) hmatch k).1 hp1
        rw [hk] at hb1
        simp at hb1
      have hrow : r0'.get? (0 + k) = r0.get? (0 + k) := by
        simp only [Nat.zero_add]
        rw [hg0 k, if_neg hne]
      simp only [getEntry2, getEntry_pair0, ok_bind]
      unfold getEntry
      rw [hrow]
    · have hne : ¬ (hitChar '0' p 0 k = true) := by
        intro hh
        have hp0 : p.get? k = some '0' := by
          unfold hitChar at hh
          simpa using hh
        have hb0 := (matchesP_fix p (bitsOf v) hmatch k).2 hp0
        rw [hk] at hb0
        simp at hb0
      have hrow : r1'.get? (0 + k) = r1.get? (0 + k) := by
        simp only [Nat.zero_add]
        rw [hg1 k, if_neg hne]
      simp only [getEntry2, getEntry_pair1, ok_bind]
      unfold getEntry
      rw [hrow]
  have hcongr := leafLayer_congr (cmacPRF E) [r0', r1'] [r0, r1] (bitsOf v) 0 hagree
  refine ⟨(cmacPRF E, [r0', r1']), ?_, ?_⟩
  · rw [hkg]
    simp only [constrain, copyMatrix_pair h0 h1, ok_bind, heq]
  · rw [hkg]
    simp only [cprfEval]
    rw [hcongr]

theorem constrain_consistency_witness :
    (cP.length ≤ 128 ∧ cV.length = 16 ∧ matchesP cP (bitsOf cV) = true) ∧
    ∃ ck, constrain (keyGen cRnd2 cE) cP cRnd = .ok ck ∧
      cprfEval ck cV = cprfEval (keyGen cRnd2 cE) cV :=
  ⟨⟨by decide, by decide, by decide⟩,
   constrain_consistency cRnd2 cE cP cRnd cV (by decide) (by decide) (by decide)⟩

/-- C3.  Non-mutation of the master key: in the heap model, `constrain`
deep-copies the master key's rows into freshly allocated row objects and
rerandomizes only those; every row object of the original store
(in particular the master key's own rows) is unchanged, so every
subsequent `eval` of the master key returns the same output as before
the constrain call. -/
theorem constrain_no_mutation (s : Store) (mref : Nat × Nat) (p : List Char)
    (rnd : Nat → Bytes) (a : Nat) (ha : a < s.length) :
    (constrainS s mref p rnd).map (fun sr => readRow sr.1 a) =
      (constrainS s mref p rnd).map (fun _ => readRow s a) ∧
    ∀ (prf : Prf) (v : Bytes),
      (constrainS s mref p rnd).map (fun sr => evalS prf sr.1 mref v) =
        (constrainS s mref p rnd).map (fun _ => evalS prf s mref v) := by
  have hpres : ∀ s' mr', constrainS s mref p rnd = .ok (s', mr') →
      ∀ b, b < s.length → s'.get? b = s.get? b := by
    intro s' mr' h b hb
    simp only [constrainS, allocRow] at h
    obtain ⟨r0, hr0, h⟩ := exceptBind_ok h
    obtain ⟨r1, hr1, h⟩ := exceptBind_ok h
    obtain ⟨c0, hc0, h⟩ := exceptBind_ok h
    obtain ⟨c1, hc1, h⟩ := exceptBind_ok h
    obtain ⟨s3, hs3, h⟩ := exceptBind_ok h
    have hlen1 : (s ++ [c0]).length = s.length + 1 := by simp
    have hfill := fillKeyS_pres rnd p 0 (s.length, (s ++ [c0]).length)
      ((s ++ [c0]) ++ [c1]) s3 hs3 b (by omega) (by omega)
    have hs' : s3 = s' := by
      have := (Except.ok.injEq _ _).mp h
      exact (Prod.mk.injEq _ _ _ _ ▸ this).1
    rw [← hs', hfill, List.get?_append (by simp; omega), List.get?_append hb]
  have hread : ∀ s' mr', constrainS s mref p rnd = .ok (s', mr') →
      ∀ b, b < s.length → readRow s' b = readRow s b := by
    intro s' mr' h b hb
    unfold readRow getEntry
    rw [hpres s' mr' h b hb]
  constructor
  · cases hcs : constrainS s mref p rnd with
    | error e => rfl
    | ok sr =>
      obtain ⟨s', mr'⟩ := sr
      simp only [Except.map]
      rw [hread s' mr' hcs a ha]
  · intro prf v
    cases hcs : constrainS s mref p rnd with
    | error e => rfl
    | ok sr =>
      obtain ⟨s', mr'⟩ := sr
      simp only [Except.map]
      have hm : mref.1 < s.length ∧ mref.2 < s.length := by
        have hcs' := hcs
        simp only [constrainS, allocRow] at hcs'
        obtain ⟨r0, hr0, hrest⟩ := exceptBind_ok hcs'
        obtain ⟨r1, hr1, _⟩ := exceptBind_ok hrest
        exact ⟨getEntry_ok_lt hr0, getEntry_ok_lt hr1⟩
      unfold evalS
      rw [hread s' mr' hcs mref.1 hm.1, hread s' mr' hcs mref.2 hm.2]

theorem constrain_no_mutation_witness :
    0 < ([zRow, oRow] : Store).length ∧
    ((constrainS [zRow, oRow] (0, 1) ['1'] cRnd).map (fun sr => readRow sr.1 0) =
      (constrainS [zRow, oRow] (0, 1) ['1'] cRnd).map (fun _ => readRow [zRow, oRow] 0)) ∧
    ∀ (prf : Prf) (v : Bytes),
      (constrainS [zRow, oRow] (0, 1) ['1'] cRnd).map (fun sr => evalS prf sr.1 (0, 1) v) =
        (constrainS [zRow, oRow] (0, 1) ['1'] cRnd).map (fun _ => evalS prf [zRow, oRow] (0, 1) v) := by
  have h := constrain_no_mutation [zRow, oRow] (0, 1) ['1'] cRnd 0 (by decide)
  exact ⟨by decide, h.1, h.2⟩
